import Mathlib

/-!
Shallow embedding of the Node-Markov repository: a tokenizer, two Markov
chain-table builders (order-1 over single words and order-2 over bigram
keys), and the two random-walk text generators, together with proofs about
them.  JavaScript runtime behaviour is modelled explicitly: the value space
of the walk variable (string / null / undefined), string coercion by the
binary + operator, the falsiness of the empty string in the expression
nextWord = words[i+1] || null, and a thrown TypeError as an error result.
Randomness is modelled by a stream of natural numbers: the i-th call of
choice(ar) returns ar[rs i % ar.length], which ranges over exactly the
indices Math.floor(Math.random() * ar.length) can produce; an empty array
yields undefined, as ar[0] does in JavaScript.
-/

namespace NodeMarkov

/-- Delimiter class of the split regex in both constructors: space,
carriage return, newline. -/
def isDelim (c : Char) : Bool := c = ' ' || c = '\r' || c = '\n'

/-- Character-level splitter: splits a character list at every character
satisfying p, keeping the empty pieces between, before and after
delimiters, exactly as the JavaScript split produces empty strings.  For a
run of n delimiters it yields n empty pieces where splitting on the
one-or-more regex would yield one; the constructors filter out all empty
strings immediately afterwards, so the composite tokenize below has the
same value as the source expression text.split on the one-or-more class
followed by the empty-string filter. -/
def splitP (p : Char → Bool) : List Char → List (List Char)
  | [] => [[]]
  | c :: cs =>
    if p c then [] :: splitP p cs
    else
      match splitP p cs with
      | t :: rest => (c :: t) :: rest
      | [] => [[c]]

/-- Constructor tokenization: text.split on the class [ \r\n] one-or-more,
then filter(c => c !== ""). -/
def tokenize (text : String) : List String :=
  ((splitP isDelim text.data).map (fun t => String.mk t)).filter (fun s => s ≠ "")

/-- The bigram generator's key.split on the one-character string,
JavaScript String.prototype.split with a single-space separator. -/
def jsSplitSpace (s : String) : List String :=
  (splitP (fun c => c = ' ') s.data).map (fun t => String.mk t)

/-- A successor entry in a chain table: a word, or none for the JavaScript
null that marks the end of the text. -/
abbrev Succ := Option String

/-- The chains Map: association list from key to successor array, in
insertion order, as a JavaScript Map iterates its keys. -/
abbrev Chains := List (String × List Succ)

/-- Map.prototype.get: the value stored under k, or undefined (none). -/
def mapGet : Chains → String → Option (List Succ)
  | [], _ => none
  | (k, v) :: rest, w => if k = w then some v else mapGet rest w

/-- One insertion step of makeChains: if the key is present, push the
successor at the end of its array; otherwise set the key to the
one-element array, which a Map appends at the end of its key order. -/
def mapPush (m : Chains) (k : String) (v : Succ) : Chains :=
  match m with
  | [] => [(k, [v])]
  | (w, l) :: rest => if w = k then (w, l ++ [v]) :: rest else (w, l) :: mapPush rest k v

/-- Array.from(chains.keys()): the keys in insertion order. -/
def keysOf (m : Chains) : List String := m.map Prod.fst

/-- The successor array under a key, defaulting to the empty list when the
key is absent (used only in statements, never by the embedded code). -/
def getList (m : Chains) (k : String) : List Succ := (mapGet m k).getD []

/-- The expression words[i+1] || null of the source: a present word is
used only when it is truthy, and the empty string is falsy in
JavaScript, so an empty-string word also becomes null. -/
def jsOrNull : Option String → Succ
  | some w => if w = "" then none else some w
  | none => none

/-- Loop body of the order-1 makeChains, processing the word list left to
right: for each word, push its following word (or null at the end) onto
the array stored under the word. -/
def makeChains1Go : List String → Chains → Chains
  | [], m => m
  | w :: rest, m => makeChains1Go rest (mapPush m w (jsOrNull rest.head?))

/-- Order-1 makeChains: build the chains Map from the word list. -/
def makeChains1 (words : List String) : Chains := makeChains1Go words []

/-- Loop body of the bigram makeChains: for each adjacent pair of words,
push the word two positions later (or null when absent) onto the array
stored under the string key words[i] + " " + words[i+1].  The loop runs
while i < words.length - 1, so lists of length 0 or 1 contribute
nothing. -/
def makeChains2Go : List String → Chains → Chains
  | w1 :: w2 :: rest, m =>
      makeChains2Go (w2 :: rest) (mapPush m (w1 ++ " " ++ w2) (jsOrNull rest.head?))
  | _, m => m

/-- Bigram makeChains: build the chains Map from the word list. -/
def makeChains2 (words : List String) : Chains := makeChains2Go words []

/-- The values the walk variable key can hold at runtime: a string, the
null sentinel, or undefined (from indexing an empty array or a missing
Map entry). -/
inductive JSVal where
  | str : String → JSVal
  | null : JSVal
  | undef : JSVal
deriving DecidableEq

/-- String coercion performed by the JavaScript + operator when one
operand is a string. -/
def jsToString : JSVal → String
  | JSVal.str s => s
  | JSVal.null => "null"
  | JSVal.undef => "undefined"

/-- Lift the result of indexing a string array: undefined when out of
range. -/
def strToJS : Option String → JSVal
  | none => JSVal.undef
  | some s => JSVal.str s

/-- Lift the result of indexing a successor array: undefined when out of
range, null for a stored null, otherwise the stored word. -/
def succToJS : Option Succ → JSVal
  | none => JSVal.undef
  | some none => JSVal.null
  | some (some s) => JSVal.str s

/-- choice(ar) = ar[Math.floor(Math.random() * ar.length)].  The random
index is any natural below ar.length when ar is non-empty; the parameter r
selects which.  For an empty array the JavaScript index is 0 and the
result is undefined, here none. -/
def choice (ar : List α) (r : Nat) : Option α := ar.get? (r % ar.length)

/-- Outcome of running a generator: a normal return value, a thrown
TypeError, or exhaustion of the step budget of the model (never reached
with enough fuel, as proved below). -/
inductive Res (α : Type) where
  | ok : α → Res α
  | typeError : Res α
  | fuelOut : Res α
deriving DecidableEq

/-- out.join(" "). -/
def joinSpace (out : List String) : String := String.intercalate (" ") out

/-- The order-1 generation loop: while (out.length < numWords && key !==
null) push the key and sample the next key from its successor array.  A
non-string key inside the loop (undefined, possible only when the Map is
empty) makes chains.get return undefined and choice(undefined) throw a
TypeError; the push of the undefined key that precedes the throw is
dropped together with the whole array, since the exception discards out.
A missing key likewise throws inside choice. -/
def loop1 (chains : Chains) (numWords : Nat) (rs : Nat → Nat) :
    Nat → Nat → JSVal → List String → Res (List String)
  | 0, _, key, out =>
    if out.length < numWords ∧ key ≠ JSVal.null then Res.fuelOut else Res.ok out
  | Nat.succ fuel, i, key, out =>
    if out.length < numWords ∧ key ≠ JSVal.null then
      match key with
      | JSVal.str s =>
        match mapGet chains s with
        | none => Res.typeError
        | some ar =>
            loop1 chains numWords rs fuel (i + 1) (succToJS (choice ar (rs i))) (out ++ [s])
      | _ => Res.typeError
    else Res.ok out

/-- Order-1 makeText up to the final join: pick a random start key and run
the loop. -/
def run1 (chains : Chains) (numWords : Nat) (rs : Nat → Nat) (fuel : Nat) :
    Res (List String) :=
  loop1 chains numWords rs fuel 1 (strToJS (choice (keysOf chains) (rs 0))) []

/-- Order-1 makeText(numWords): the output array joined with single
spaces, or the thrown error. -/
def makeText1 (chains : Chains) (numWords : Nat) (rs : Nat → Nat) (fuel : Nat) :
    Res String :=
  match run1 chains numWords rs fuel with
  | Res.ok out => Res.ok (joinSpace out)
  | Res.typeError => Res.typeError
  | Res.fuelOut => Res.fuelOut

/-- The bigram generation loop: while (out.length <= numWords && key !==
null) split the key at spaces, push its first part, and rebuild the next
key as second part + " " + sampled successor, the + operator coercing a
sampled null to the string form of null.  The key is checked against null
but, being rebuilt by string concatenation, is a string on every iteration
after the first, so only the length bound or a thrown TypeError (missing
Map entry, or an undefined key when the Map is empty) ends the loop. -/
def loop2 (chains : Chains) (numWords : Nat) (rs : Nat → Nat) :
    Nat → Nat → JSVal → List String → Res (List String)
  | 0, _, key, out =>
    if out.length ≤ numWords ∧ key ≠ JSVal.null then Res.fuelOut else Res.ok out
  | Nat.succ fuel, i, key, out =>
    if out.length ≤ numWords ∧ key ≠ JSVal.null then
      match key with
      | JSVal.str s =>
        match mapGet chains s with
        | none => Res.typeError
        | some ar =>
            loop2 chains numWords rs fuel (i + 1)
              (JSVal.str (jsToString (strToJS ((jsSplitSpace s).get? 1)) ++ " " ++
                jsToString (succToJS (choice ar (rs i)))))
              (out ++ [(jsSplitSpace s).headD ("")])
      | _ => Res.typeError
    else Res.ok out

/-- Bigram makeText up to the final join: pick a random start key and run
the loop. -/
def run2 (chains : Chains) (numWords : Nat) (rs : Nat → Nat) (fuel : Nat) :
    Res (List String) :=
  loop2 chains numWords rs fuel 1 (strToJS (choice (keysOf chains) (rs 0))) []

/-- Bigram makeText(numWords): the output array joined with single spaces,
or the thrown error. -/
def makeText2 (chains : Chains) (numWords : Nat) (rs : Nat → Nat) (fuel : Nat) :
    Res String :=
  match run2 chains numWords rs fuel with
  | Res.ok out => Res.ok (joinSpace out)
  | Res.typeError => Res.typeError
  | Res.fuelOut => Res.fuelOut

/-! Spec-side definitions, stated in the words of the specification and
compared with the embedded source functions in the theorems below. -/

/-- Tokenization as the specification words it: scan the text, collecting
the maximal runs of non-delimiter characters and skipping the runs of
delimiters, so that no empty token is ever produced.  The accumulator
holds the reversed current run. -/
def specTokensGo : List Char → List Char → List (List Char)
  | [], acc => if acc = [] then [] else [acc.reverse]
  | c :: cs, acc =>
    if isDelim c then
      if acc = [] then specTokensGo cs [] else acc.reverse :: specTokensGo cs []
    else specTokensGo cs (c :: acc)

/-- Tokenizer as described by the specification. -/
def specTokenize (text : String) : List String :=
  (specTokensGo text.data []).map (fun t => String.mk t)

/-- Successor sequence the specification prescribes for a key in the
order-1 table: one entry per occurrence of the key in the token list, the
entry being the following token, or END (none) when the occurrence is
last. -/
def specSuccs1 : List String → String → List Succ
  | [], _ => []
  | w :: rest, k => (if w = k then [rest.head?] else []) ++ specSuccs1 rest k

/-- Successor sequence the specification prescribes for a bigram key: one
entry per adjacent pair whose concatenation is the key, the entry being
the token two positions later, or END (none) when absent. -/
def specSuccs2 : List String → String → List Succ
  | w1 :: w2 :: rest, k =>
      (if w1 ++ " " ++ w2 = k then [rest.head?] else []) ++ specSuccs2 (w2 :: rest) k
  | _, _ => []

/-- Successor sequence the source actually stores under an order-1 key,
with the words[i+1] || null truthiness applied. -/
def sux1 : List String → String → List Succ
  | [], _ => []
  | w :: rest, k => (if w = k then [jsOrNull rest.head?] else []) ++ sux1 rest k

/-- Successor sequence the source actually stores under a bigram key. -/
def sux2 : List String → String → List Succ
  | w1 :: w2 :: rest, k =>
      (if w1 ++ " " ++ w2 = k then [jsOrNull rest.head?] else []) ++ sux2 (w2 :: rest) k
  | _, _ => []

/-- Whether a word is stored as a (non-END) successor of some key of the
table. -/
def hasSucc (chains : Chains) (t : String) : Bool :=
  chains.any (fun p => p.2.contains (some t))

/-- Prepend a prefix onto the first piece of a split (helper for relating
the run-collecting spec tokenizer to the split-then-filter source
tokenizer). -/
def consHead (pre : List Char) : List (List Char) → List (List Char)
  | t :: rest => (pre ++ t) :: rest
  | [] => [pre]

/-- A string containing no space character. -/
abbrev spaceFree (t : String) : Prop := ∀ c ∈ t.data, c ≠ ' '

/-- The five-word example corpus of the specification. -/
def exHat : String := "the cat in the hat"

/-- A corpus containing the literal word null at position 1 only, used to
exercise the string coercion of the END sentinel in the bigram walk. -/
def exC9 : String := "w null x y w"

/-- A two-key cyclic corpus for the length-bound comparison. -/
def exAAA : String := "a a a"

/-- A one-token corpus, whose bigram table is empty. -/
def exX : String := "x"

/-- The empty corpus, whose order-1 table is empty. -/
def exEmpty : String := ""

/-- A two-token corpus. -/
def exAB : String := "a b"

/-- The constant-zero random stream: every choice takes index 0. -/
def rsZero : Nat → Nat := fun _ => 0

/-- Random stream that starts the bigram walk on exHat at the key
with index 3, the key built from the last two tokens, and then always
takes index 0. -/
def rsC2 : Nat → Nat := fun i => if i = 0 then 3 else 0

/-- Random stream that starts the bigram walk on exC9 at the key with
index 2 and then always takes index 0. -/
def rsC9 : Nat → Nat := fun i => if i = 0 then 2 else 0

/-! Lemmas about the association-list Map. -/

theorem mapGet_mapPush (m : Chains) (k : String) (v : Succ) (w : String) :
    mapGet (mapPush m k v) w =
      if k = w then some (getList m k ++ [v]) else mapGet m w := by
  induction m with
  | nil => simp [mapGet, mapPush, getList]
  | cons p rest ih =>
    obtain ⟨a, l⟩ := p
    by_cases hak : a = k
    · subst hak
      by_cases haw : a = w
      · subst haw
        simp [mapGet, mapPush, getList]
      · simp [mapGet, mapPush, getList, haw]
    · by_cases haw : a = w
      · subst haw
        simp [mapGet, mapPush, getList, hak, ih, Ne.symm hak]
      · simp [mapGet, mapPush, getList, hak, haw, ih]

theorem mapGet_eq_none_iff (m : Chains) (k : String) :
    mapGet m k = none ↔ k ∉ keysOf m := by
  induction m with
  | nil => simp [mapGet, keysOf]
  | cons p rest ih =>
    obtain ⟨a, l⟩ := p
    by_cases hak : a = k
    · subst hak
      simp [mapGet, keysOf]
    · simp [mapGet, keysOf, hak, Ne.symm hak]
      simpa [keysOf] using ih

theorem mapGet_some_mem (m : Chains) (k : String) (l : List Succ)
    (h : mapGet m k = some l) : (k, l) ∈ m := by
  induction m with
  | nil => simp [mapGet] at h
  | cons p rest ih =>
    obtain ⟨a, v⟩ := p
    by_cases hak : a = k
    · subst hak
      simp [mapGet] at h
      simp [h]
    · simp [mapGet, hak] at h
      simp [ih h]

theorem hasSucc_of_mapGet (chains : Chains) (s : String) (ar : List Succ)
    (t : String) (h : mapGet chains s = some ar) (ht : some t ∈ ar) :
    hasSucc chains t = true := by
  have hmem := mapGet_some_mem chains s ar h
  simp only [hasSucc, List.any_eq_true]
  refine ⟨(s, ar), hmem, ?_⟩
  exact List.contains_iff_exists_mem_beq.mpr ⟨some t, ht, by simp⟩

/-! Characterization of the two table builders. -/

theorem mapGet_makeChains1Go (ts : List String) : ∀ (m : Chains) (k : String),
    mapGet (makeChains1Go ts m) k =
      match mapGet m k with
      | some l => some (l ++ sux1 ts k)
      | none => if sux1 ts k = [] then none else some (sux1 ts k) := by
  induction ts with
  | nil =>
    intro m k
    cases h : mapGet m k <;> simp [makeChains1Go, sux1, h]
  | cons w rest ih =>
    intro m k
    rw [show makeChains1Go (w :: rest) m
        = makeChains1Go rest (mapPush m w (jsOrNull rest.head?)) from rfl]
    rw [ih, mapGet_mapPush]
    by_cases hwk : w = k
    · subst hwk
      cases h : mapGet m w <;> simp [sux1, getList, h]
    · cases h : mapGet m k <;> simp [sux1, hwk, h]

theorem mapGet_makeChains1 (ts : List String) (k : String) :
    mapGet (makeChains1 ts) k =
      if sux1 ts k = [] then none else some (sux1 ts k) := by
  have h := mapGet_makeChains1Go ts [] k
  simpa [makeChains1, mapGet] using h

theorem mapGet_makeChains2Go (ts : List String) : ∀ (m : Chains) (k : String),
    mapGet (makeChains2Go ts m) k =
      match mapGet m k with
      | some l => some (l ++ sux2 ts k)
      | none => if sux2 ts k = [] then none else some (sux2 ts k) := by
  induction ts with
  | nil =>
    intro m k
    cases h : mapGet m k <;> simp [makeChains2Go, sux2, h]
  | cons w rest ih =>
    intro m k
    match rest with
    | [] => cases h : mapGet m k <;> simp [makeChains2Go, sux2, h]
    | w2 :: rest2 =>
      rw [show makeChains2Go (w :: w2 :: rest2) m
          = makeChains2Go (w2 :: rest2)
              (mapPush m (w ++ " " ++ w2) (jsOrNull rest2.head?)) from rfl]
      rw [ih, mapGet_mapPush]
      by_cases hwk : w ++ " " ++ w2 = k
      · rw [hwk]
        cases h : mapGet m k <;> simp [sux2, getList, h, hwk]
      · cases h : mapGet m k <;> simp [sux2, hwk, h]

theorem mapGet_makeChains2 (ts : List String) (k : String) :
    mapGet (makeChains2 ts) k =
      if sux2 ts k = [] then none else some (sux2 ts k) := by
  have h := mapGet_makeChains2Go ts [] k
  simpa [makeChains2, mapGet] using h

theorem sux1_eq_specSuccs1 (ts : List String) (k : String)
    (h : ∀ t ∈ ts, t ≠ "") : sux1 ts k = specSuccs1 ts k := by
  induction ts with
  | nil => rfl
  | cons w rest ih =>
    have hrest : ∀ t ∈ rest, t ≠ "" := fun t ht => h t (List.mem_cons_of_mem w ht)
    have hhead : jsOrNull rest.head? = rest.head? := by
      match rest with
      | [] => rfl
      | r :: rest2 =>
        have hr : r ≠ "" := hrest r (List.mem_cons_self r rest2)
        simp [jsOrNull, hr]
    simp [sux1, specSuccs1, hhead, ih hrest]

theorem sux2_eq_specSuccs2 (ts : List String) (k : String)
    (h : ∀ t ∈ ts, t ≠ "") : sux2 ts k = specSuccs2 ts k := by
  induction ts with
  | nil => rfl
  | cons w rest ih =>
    have hrest : ∀ t ∈ rest, t ≠ "" := fun t ht => h t (List.mem_cons_of_mem w ht)
    match rest with
    | [] => rfl
    | w2 :: rest2 =>
      have hhead : jsOrNull rest2.head? = rest2.head? := by
        match rest2 with
        | [] => rfl
        | r :: rest3 =>
          have hr : r ≠ "" := hrest r (List.mem_cons_of_mem w2 (List.mem_cons_self r rest3))
          simp [jsOrNull, hr]
      simp [sux2, specSuccs2, hhead, ih hrest]

theorem sux1_ne_nil (ts : List String) (k : String) (h : k ∈ ts) :
    sux1 ts k ≠ [] := by
  induction ts with
  | nil => cases h
  | cons w rest ih =>
    rcases List.mem_cons.mp h with hk | hk
    · simp [sux1, hk.symm]
    · simp only [sux1]
      intro hcontra
      rcases List.append_eq_nil.mp hcontra with ⟨-, h2⟩
      exact ih hk h2

theorem mem_of_sux1_some (ts : List String) (k t : String)
    (h : some t ∈ sux1 ts k) : t ∈ ts := by
  induction ts with
  | nil => cases h
  | cons w rest ih =>
    simp only [sux1] at h
    rcases List.mem_append.mp h with h1 | h1
    · have : jsOrNull rest.head? = some t := by
        by_cases hwk : w = k
        · exact ((by simpa [hwk] using h1 : some t = jsOrNull rest.head?)).symm
        · simp [hwk] at h1
      match rest, this with
      | r :: rest2, hthis =>
        have : r = t := by
          by_cases hr : r = ""
          · simp [jsOrNull, hr] at hthis
          · simpa [jsOrNull, hr] using hthis
        exact this ▸ List.mem_cons_of_mem w (List.mem_cons_self r rest2)
    · exact List.mem_cons_of_mem w (ih h1)

theorem mem_of_sux2_some (ts : List String) (k t : String)
    (h : some t ∈ sux2 ts k) : t ∈ ts := by
  induction ts with
  | nil => cases h
  | cons w rest ih =>
    match rest with
    | [] => cases h
    | w2 :: rest2 =>
      simp only [sux2] at h
      rcases List.mem_append.mp h with h1 | h1
      · have hthis : jsOrNull rest2.head? = some t := by
          by_cases hwk : w ++ " " ++ w2 = k
          · exact ((by simpa [hwk] using h1 : some t = jsOrNull rest2.head?)).symm
          · simp [hwk] at h1
        match rest2, hthis with
        | r :: rest3, hthis2 =>
          have : r = t := by
            by_cases hr : r = ""
            · simp [jsOrNull, hr] at hthis2
            · simpa [jsOrNull, hr] using hthis2
          subst this
          exact List.mem_cons_of_mem w
            (List.mem_cons_of_mem w2 (List.mem_cons_self r rest3))
      · exact List.mem_cons_of_mem w (ih h1)

theorem specSuccs2_ne_nil_exists (ts : List String) (k : String)
    (h : specSuccs2 ts k ≠ []) :
    ∃ i a b, ts.get? i = some a ∧ ts.get? (i + 1) = some b ∧ k = a ++ " " ++ b := by
  induction ts with
  | nil => simp [specSuccs2] at h
  | cons w rest ih =>
    match rest with
    | [] => simp [specSuccs2] at h
    | w2 :: rest2 =>
      by_cases hwk : w ++ " " ++ w2 = k
      · exact ⟨0, w, w2, rfl, rfl, hwk.symm⟩
      · have h2 : specSuccs2 (w2 :: rest2) k ≠ [] := by
          simp only [specSuccs2, hwk] at h
          simpa using h
        obtain ⟨i, a, b, h1, h2, h3⟩ := ih h2
        exact ⟨i + 1, a, b, h1, h2, h3⟩

theorem specSuccs2_ne_nil_of_adj (ts : List String) (i : Nat) (a b : String)
    (h1 : ts.get? i = some a) (h2 : ts.get? (i + 1) = some b) :
    specSuccs2 ts (a ++ " " ++ b) ≠ [] := by
  induction i generalizing ts with
  | zero =>
    match ts with
    | [] => simp at h1
    | [w] => simp at h2
    | w :: w2 :: rest =>
      simp at h1 h2
      subst h1; subst h2
      simp [specSuccs2]
  | succ i ih =>
    match ts with
    | [] => simp at h1
    | w :: rest =>
      have h1r : rest.get? i = some a := h1
      have h2r : rest.get? (i + 1) = some b := h2
      match rest with
      | [] => simp at h1r
      | w2 :: rest2 =>
        have := ih (w2 :: rest2) h1r h2r
        simp only [specSuccs2]
        intro hcontra
        rcases List.append_eq_nil.mp hcontra with ⟨-, hc2⟩
        exact this hc2

/-- C5: for every sequence of tokens (non-empty strings, as the tokenizer
produces), the order-1 build maps each key to exactly the sequence of
per-occurrence successors, tokens at the following index or END at the
last index, creating the key at its first occurrence and leaving absent
words unmapped; a single-token list gives the one-key table mapping to
the one-element END sequence, and the empty token list gives the empty
table. -/
theorem c5_order1_build (ts : List String) (h : ∀ t ∈ ts, t ≠ "") :
    (∀ k, mapGet (makeChains1 ts) k =
        if specSuccs1 ts k = [] then none else some (specSuccs1 ts k)) ∧
    makeChains1 [] = ([] : Chains) ∧
    (∀ t, makeChains1 [t] = [(t, [none])]) := by
  refine ⟨fun k => ?_, rfl, fun t => rfl⟩
  rw [mapGet_makeChains1, sux1_eq_specSuccs1 ts k h]

/-- C5 witness: on the example corpus, the key for the first word stores
the two observed followers, in corpus order. -/
theorem c5_order1_build_witness :
    mapGet (makeChains1 (tokenize exHat)) ("the") = some [some ("cat"), some ("hat")] := by
  have h := (c5_order1_build (tokenize exHat) (by decide)).1 ("the")
  rw [h]
  decide

/-- C6: for every sequence of tokens, the order-2 build maps each bigram
key to exactly the per-occurrence successors, the token two positions
later or END when absent; fewer than two tokens give the empty table;
every key of the table is the composite of an adjacent token pair, and
every adjacent token pair, consecutive pairs overlapping in one token, is
a key of the table. -/
theorem c6_order2_build (ts : List String) (h : ∀ t ∈ ts, t ≠ "") :
    (∀ k, mapGet (makeChains2 ts) k =
        if specSuccs2 ts k = [] then none else some (specSuccs2 ts k)) ∧
    (ts.length < 2 → makeChains2 ts = []) ∧
    (∀ k, k ∈ keysOf (makeChains2 ts) →
        ∃ i a b, ts.get? i = some a ∧ ts.get? (i + 1) = some b ∧ k = a ++ " " ++ b) ∧
    (∀ i a b, ts.get? i = some a → ts.get? (i + 1) = some b →
        mapGet (makeChains2 ts) (a ++ " " ++ b) ≠ none) := by
  have hchar : ∀ k, mapGet (makeChains2 ts) k =
      if specSuccs2 ts k = [] then none else some (specSuccs2 ts k) := by
    intro k
    rw [mapGet_makeChains2, sux2_eq_specSuccs2 ts k h]
  refine ⟨hchar, ?_, ?_, ?_⟩
  · intro hlen
    match ts, hlen with
    | [], _ => rfl
    | [t], _ => rfl
  · intro k hk
    have hne : mapGet (makeChains2 ts) k ≠ none := by
      intro hcontra
      exact ((mapGet_eq_none_iff (makeChains2 ts) k).mp hcontra) hk
    rw [hchar k] at hne
    by_cases hnil : specSuccs2 ts k = []
    · simp [hnil] at hne
    · exact specSuccs2_ne_nil_exists ts k hnil
  · intro i a b h1 h2
    rw [hchar (a ++ " " ++ b)]
    simp [specSuccs2_ne_nil_of_adj ts i a b h1 h2]

/-- C6 witness: on the example corpus, the final bigram key stores the
one-element END sequence, and the first adjacent pair is a key. -/
theorem c6_order2_build_witness :
    mapGet (makeChains2 (tokenize exHat)) ("the hat") = some [none] ∧
    mapGet (makeChains2 (tokenize exHat)) ("the cat") ≠ none := by
  have h := c6_order2_build (tokenize exHat) (by decide)
  constructor
  · rw [h.1 ("the hat")]
    decide
  · exact h.2.2.2 0 ("the") ("cat") (by decide) (by decide)

/-! Tokenizer lemmas. -/

theorem splitP_ne_nil (p : Char → Bool) (cs : List Char) : splitP p cs ≠ [] := by
  match cs with
  | [] => simp [splitP]
  | c :: cs =>
    by_cases hc : p c
    · simp [splitP, hc]
    · simp only [splitP, hc, if_neg, Bool.false_eq_true, not_false_eq_true, if_false]
      match hs : splitP p cs with
      | t :: rest => simp
      | [] => simp

theorem mk_eq_empty_iff (l : List Char) : String.mk l = "" ↔ l = [] := by
  constructor
  · intro h
    have h2 : (String.mk l).data = ("" : String).data := by rw [h]
    simpa using h2
  · intro h
    subst h
    rfl

theorem filter_map_mk (l : List (List Char)) :
    (l.map (fun t => String.mk t)).filter (fun s => s ≠ "") =
      (l.filter (fun t => t ≠ [])).map (fun t => String.mk t) := by
  induction l with
  | nil => rfl
  | cons t rest ih =>
    simp only [List.map_cons, List.filter_cons]
    by_cases ht : t = []
    · subst ht
      have h1 : (decide ((String.mk []) ≠ "")) = false := by simp [mk_eq_empty_iff]
      have h2 : (decide (([] : List Char) ≠ [])) = false := by simp
      rw [h1, h2]
      simpa using ih
    · have h1 : (decide ((String.mk t) ≠ "")) = true := by simp [mk_eq_empty_iff, ht]
      have h2 : (decide (t ≠ [])) = true := by simp [ht]
      rw [h1, h2]
      simpa using ih

theorem consHead_nil_of_ne_nil (l : List (List Char)) (h : l ≠ []) :
    consHead [] l = l := by
  match l with
  | t :: rest => simp [consHead]

theorem specTokensGo_eq (cs : List Char) : ∀ acc : List Char,
    specTokensGo cs acc =
      (consHead acc.reverse (splitP isDelim cs)).filter (fun t => t ≠ []) := by
  induction cs with
  | nil =>
    intro acc
    by_cases hacc : acc = []
    · subst hacc
      simp [specTokensGo, splitP, consHead]
    · have hrev : acc.reverse ≠ [] := by simpa using hacc
      simp [specTokensGo, splitP, consHead, hacc, hrev]
  | cons c cs ih =>
    intro acc
    by_cases hc : isDelim c
    · have hbase := ih []
      simp only [List.reverse_nil] at hbase
      rw [consHead_nil_of_ne_nil (splitP isDelim cs) (splitP_ne_nil isDelim cs)] at hbase
      by_cases hacc : acc = []
      · subst hacc
        simp [specTokensGo, splitP, hc, consHead, hbase]
      · have hrev : acc.reverse ≠ [] := by simpa using hacc
        simp [specTokensGo, splitP, hc, consHead, hbase, hacc, hrev]
    · obtain ⟨t, rest, heq⟩ := List.exists_cons_of_ne_nil (splitP_ne_nil isDelim cs)
      have hstep := ih (c :: acc)
      rw [heq] at hstep
      simp only [List.reverse_cons] at hstep
      simp only [specTokensGo, hc, Bool.false_eq_true, if_false, hstep, splitP, heq,
        consHead]
      simp

/-- C7: the constructor tokenization splits the text exactly into the
maximal runs of non-delimiter characters, space, carriage return and
newline being the delimiters; all empty strings are dropped, no other
transformation is applied, and the tokenization is a function of the text
alone. -/
theorem c7_tokenizer (text : String) :
    tokenize text = specTokenize text ∧
    (∀ t ∈ tokenize text, t ≠ "") ∧
    (∀ text2 : String, text = text2 → tokenize text = tokenize text2) := by
  refine ⟨?_, ?_, ?_⟩
  · have h := specTokensGo_eq text.data []
    simp only [List.reverse_nil] at h
    rw [consHead_nil_of_ne_nil (splitP isDelim text.data)
      (splitP_ne_nil isDelim text.data)] at h
    rw [tokenize, specTokenize, h, filter_map_mk]
  · intro t ht
    have := List.of_mem_filter ht
    simpa using this
  · intro text2 h
    rw [h]

/-- C7 witness: concrete run on a text with repeated, leading and trailing
delimiters. -/
theorem c7_tokenizer_witness :
    tokenize (" a  b\r\nc ") = specTokenize (" a  b\r\nc ") :=
  (c7_tokenizer (" a  b\r\nc ")).1

theorem splitP_no_delim (p : Char → Bool) (cs : List Char) :
    ∀ t ∈ splitP p cs, ∀ c ∈ t, p c = false := by
  induction cs with
  | nil =>
    intro t ht c hc
    simp [splitP] at ht
    subst ht
    cases hc
  | cons a cs ih =>
    intro t ht c hc
    by_cases ha : p a
    · simp only [splitP, ha, if_true] at ht
      rcases List.mem_cons.mp ht with h1 | h1
      · subst h1; cases hc
      · exact ih t h1 c hc
    · obtain ⟨t0, rest, heq⟩ := List.exists_cons_of_ne_nil (splitP_ne_nil p cs)
      simp only [splitP, ha, Bool.false_eq_true, if_false, heq] at ht
      rcases List.mem_cons.mp ht with h1 | h1
      · subst h1
        rcases List.mem_cons.mp hc with h2 | h2
        · subst h2
          simpa using ha
        · exact ih t0 (heq ▸ List.mem_cons_self t0 rest) c h2
      · exact ih t (heq ▸ List.mem_cons_of_mem t0 h1) c hc

/-- C8: every token the tokenizer produces is a non-empty string none of
whose characters is a whitespace delimiter. -/
theorem c8_token_shape (text : String) (t : String) (ht : t ∈ tokenize text) :
    t ≠ "" ∧ ∀ c ∈ t.data, isDelim c = false := by
  constructor
  · have := List.of_mem_filter ht
    simpa using this
  · have hmem := List.mem_of_mem_filter ht
    obtain ⟨l, hl, hlt⟩ := List.mem_map.mp hmem
    intro c hc
    exact splitP_no_delim isDelim text.data l hl c (by simpa [← hlt] using hc)

/-- C8 witness: a concrete token of a concrete text. -/
theorem c8_token_shape_witness :
    ("ab" : String) ≠ "" ∧ ∀ c ∈ ("ab" : String).data, isDelim c = false :=
  c8_token_shape ("ab cd") ("ab") (by decide)

/-! Unfolding equations for the two generation loops. -/

theorem loop1_stop (chains : Chains) (numWords : Nat) (rs : Nat → Nat)
    (fuel i : Nat) (key : JSVal) (out : List String)
    (h : ¬ (out.length < numWords ∧ key ≠ JSVal.null)) :
    loop1 chains numWords rs fuel i key out = Res.ok out := by
  cases fuel with
  | zero => rw [loop1, if_neg h]
  | succ fuel =>
    cases key with
    | str s => rw [loop1, if_neg h]
    | null =>
      rw [loop1, if_neg h]
      all_goals intro s hs
      all_goals exact JSVal.noConfusion hs
    | undef =>
      rw [loop1, if_neg h]
      all_goals intro s hs
      all_goals exact JSVal.noConfusion hs

theorem loop1_fuel0 (chains : Chains) (numWords : Nat) (rs : Nat → Nat)
    (i : Nat) (key : JSVal) (out : List String)
    (h : out.length < numWords ∧ key ≠ JSVal.null) :
    loop1 chains numWords rs 0 i key out = Res.fuelOut := by
  rw [loop1, if_pos h]

theorem loop1_step_null (chains : Chains) (numWords : Nat) (rs : Nat → Nat)
    (fuel i : Nat) (out : List String) :
    loop1 chains numWords rs (fuel + 1) i JSVal.null out = Res.ok out := by
  rw [loop1, if_neg (by simp)]
  all_goals intro s hs
  all_goals exact JSVal.noConfusion hs

theorem loop1_step_str (chains : Chains) (numWords : Nat) (rs : Nat → Nat)
    (fuel i : Nat) (s : String) (out : List String)
    (h : out.length < numWords) :
    loop1 chains numWords rs (fuel + 1) i (JSVal.str s) out =
      match mapGet chains s with
      | none => Res.typeError
      | some ar =>
          loop1 chains numWords rs fuel (i + 1) (succToJS (choice ar (rs i))) (out ++ [s]) := by
  rw [loop1, if_pos ⟨h, by simp⟩]

theorem loop1_step_undef (chains : Chains) (numWords : Nat) (rs : Nat → Nat)
    (fuel i : Nat) (out : List String) (h : out.length < numWords) :
    loop1 chains numWords rs (fuel + 1) i JSVal.undef out = Res.typeError := by
  rw [loop1, if_pos ⟨h, by simp⟩]
  all_goals intro s hs
  all_goals exact JSVal.noConfusion hs

theorem loop2_stop (chains : Chains) (numWords : Nat) (rs : Nat → Nat)
    (fuel i : Nat) (key : JSVal) (out : List String)
    (h : ¬ (out.length ≤ numWords ∧ key ≠ JSVal.null)) :
    loop2 chains numWords rs fuel i key out = Res.ok out := by
  cases fuel with
  | zero => rw [loop2, if_neg h]
  | succ fuel =>
    cases key with
    | str s => rw [loop2, if_neg h]
    | null =>
      rw [loop2, if_neg h]
      all_goals intro s hs
      all_goals exact JSVal.noConfusion hs
    | undef =>
      rw [loop2, if_neg h]
      all_goals intro s hs
      all_goals exact JSVal.noConfusion hs

theorem loop2_fuel0 (chains : Chains) (numWords : Nat) (rs : Nat → Nat)
    (i : Nat) (key : JSVal) (out : List String)
    (h : out.length ≤ numWords ∧ key ≠ JSVal.null) :
    loop2 chains numWords rs 0 i key out = Res.fuelOut := by
  rw [loop2, if_pos h]

theorem loop2_step_null (chains : Chains) (numWords : Nat) (rs : Nat → Nat)
    (fuel i : Nat) (out : List String) :
    loop2 chains numWords rs (fuel + 1) i JSVal.null out = Res.ok out := by
  rw [loop2, if_neg (by simp)]
  all_goals intro s hs
  all_goals exact JSVal.noConfusion hs

theorem loop2_step_str (chains : Chains) (numWords : Nat) (rs : Nat → Nat)
    (fuel i : Nat) (s : String) (out : List String)
    (h : out.length ≤ numWords) :
    loop2 chains numWords rs (fuel + 1) i (JSVal.str s) out =
      match mapGet chains s with
      | none => Res.typeError
      | some ar =>
          loop2 chains numWords rs fuel (i + 1)
            (JSVal.str (jsToString (strToJS ((jsSplitSpace s).get? 1)) ++ " " ++
              jsToString (succToJS (choice ar (rs i)))))
            (out ++ [(jsSplitSpace s).headD ("")]) := by
  rw [loop2, if_pos ⟨h, by simp⟩]

theorem loop2_step_undef (chains : Chains) (numWords : Nat) (rs : Nat → Nat)
    (fuel i : Nat) (out : List String) (h : out.length ≤ numWords) :
    loop2 chains numWords rs (fuel + 1) i JSVal.undef out = Res.typeError := by
  rw [loop2, if_pos ⟨h, by simp⟩]
  all_goals intro s hs
  all_goals exact JSVal.noConfusion hs

/-- C1: on an empty chain table the generators do not return the empty
string; the stray undefined start key passes the key-is-not-null loop
guard and the first iteration throws a TypeError, in the order-1 variant
at choice(chains.get(undefined)) and in the bigram variant at
undefined.split.  The corresponding failing inputs are the empty corpus
for order-1 and a one-token corpus for order-2. -/
theorem c1_empty_model_crash :
    makeChains1 (tokenize exEmpty) = [] ∧
    makeText1 (makeChains1 (tokenize exEmpty)) 100 rsZero 5 = Res.typeError ∧
    makeChains2 (tokenize exX) = [] ∧
    makeText2 (makeChains2 (tokenize exX)) 100 rsZero 5 = Res.typeError := by
  decide

/-- C2: in the bigram generator a sampled END sentinel does not stop the
walk: on the example corpus, starting from the final bigram key, the
sampled null is coerced into the rebuilt string key, the guard passes,
one extra token is emitted, and the following lookup of the coerced key
misses the Map and throws a TypeError, so the run does not return the
single leading token of the terminal key. -/
theorem c2_end_sampling_crash :
    mapGet (makeChains2 (tokenize exHat)) ("the hat") = some [none] ∧
    strToJS (choice (keysOf (makeChains2 (tokenize exHat))) (rsC2 0)) =
      JSVal.str ("the hat") ∧
    makeText2 (makeChains2 (tokenize exHat)) 100 rsC2 10 = Res.typeError := by
  decide

/-- C3 counterexample: with the bound numWords = 2 the bigram generator
returns three tokens on a non-empty table, exceeding the bound, while the
order-1 generator on the same corpus respects it; the two variants use
different boundary conventions. -/
theorem c3_counterexample :
    run2 (makeChains2 (tokenize exAAA)) 2 rsZero 10 = Res.ok [("a"), ("a"), ("a")] ∧
    ([("a"), ("a"), ("a")] : List String).length = 3 ∧ 2 < 3 ∧
    run1 (makeChains1 (tokenize exAAA)) 2 rsZero 10 = Res.ok [("a"), ("a")] := by
  decide

theorem loop1_ok_length (chains : Chains) (numWords : Nat) (rs : Nat → Nat) :
    ∀ (fuel i : Nat) (key : JSVal) (out out2 : List String),
      out.length ≤ numWords →
      loop1 chains numWords rs fuel i key out = Res.ok out2 →
      out2.length ≤ numWords := by
  intro fuel
  induction fuel with
  | zero =>
    intro i key out out2 hlen hrun
    by_cases hcond : out.length < numWords ∧ key ≠ JSVal.null
    · rw [loop1_fuel0 chains numWords rs i key out hcond] at hrun
      cases hrun
    · rw [loop1_stop chains numWords rs 0 i key out hcond] at hrun
      cases hrun
      exact hlen
  | succ fuel ih =>
    intro i key out out2 hlen hrun
    by_cases hcond : out.length < numWords ∧ key ≠ JSVal.null
    · match key, hcond with
      | JSVal.str s, hcond =>
        rw [loop1_step_str chains numWords rs fuel i s out hcond.1] at hrun
        cases hget : mapGet chains s with
        | none => rw [hget] at hrun; cases hrun
        | some ar =>
          rw [hget] at hrun
          refine ih (i + 1) _ (out ++ [s]) out2 ?_ hrun
          have := hcond.1
          simp only [List.length_append, List.length_cons, List.length_nil]
          omega
      | JSVal.undef, hcond =>
        rw [loop1_step_undef chains numWords rs fuel i out hcond.1] at hrun
        cases hrun
    · rw [loop1_stop chains numWords rs (fuel + 1) i key out hcond] at hrun
      cases hrun
      exact hlen

theorem loop2_ok_length (chains : Chains) (numWords : Nat) (rs : Nat → Nat) :
    ∀ (fuel i : Nat) (key : JSVal) (out out2 : List String),
      out.length ≤ numWords + 1 →
      loop2 chains numWords rs fuel i key out = Res.ok out2 →
      out2.length ≤ numWords + 1 := by
  intro fuel
  induction fuel with
  | zero =>
    intro i key out out2 hlen hrun
    by_cases hcond : out.length ≤ numWords ∧ key ≠ JSVal.null
    · rw [loop2_fuel0 chains numWords rs i key out hcond] at hrun
      cases hrun
    · rw [loop2_stop chains numWords rs 0 i key out hcond] at hrun
      cases hrun
      exact hlen
  | succ fuel ih =>
    intro i key out out2 hlen hrun
    by_cases hcond : out.length ≤ numWords ∧ key ≠ JSVal.null
    · match key, hcond with
      | JSVal.str s, hcond =>
        rw [loop2_step_str chains numWords rs fuel i s out hcond.1] at hrun
        cases hget : mapGet chains s with
        | none => rw [hget] at hrun; cases hrun
        | some ar =>
          rw [hget] at hrun
          refine ih (i + 1) _ (out ++ [(jsSplitSpace s).headD ("")]) out2 ?_ hrun
          have := hcond.1
          simp only [List.length_append, List.length_cons, List.length_nil]
          omega
      | JSVal.undef, hcond =>
        rw [loop2_step_undef chains numWords rs fuel i out hcond.1] at hrun
        cases hrun
    · rw [loop2_stop chains numWords rs (fuel + 1) i key out hcond] at hrun
      cases hrun
      exact hlen

/-- C3 amended: the order-1 generator emits at most numWords tokens, the
bound applied exclusively (out.length < numWords before each push), while
the bigram generator emits at most numWords + 1 tokens, the bound applied
inclusively (out.length <= numWords before each push): the boundary
convention differs by one between the two variants. -/
theorem c3_amended_bounds (chains : Chains) (numWords : Nat) (rs : Nat → Nat)
    (fuel : Nat) (out : List String) :
    (run1 chains numWords rs fuel = Res.ok out → out.length ≤ numWords) ∧
    (run2 chains numWords rs fuel = Res.ok out → out.length ≤ numWords + 1) := by
  constructor
  · intro h
    exact loop1_ok_length chains numWords rs fuel 1
      (strToJS (choice (keysOf chains) (rs 0))) [] out (by simp) h
  · intro h
    exact loop2_ok_length chains numWords rs fuel 1
      (strToJS (choice (keysOf chains) (rs 0))) [] out (by simp) h

/-- C3 amended witness: the bounds evaluated on a concrete corpus, bound
and random stream. -/
theorem c3_amended_bounds_witness :
    ([("a"), ("a")] : List String).length ≤ 2 ∧
    ([("a"), ("a"), ("a")] : List String).length ≤ 2 + 1 :=
  ⟨(c3_amended_bounds (makeChains1 (tokenize exAAA)) 2 rsZero 10 [("a"), ("a")]).1
      (by decide),
    (c3_amended_bounds (makeChains2 (tokenize exAAA)) 2 rsZero 10
      [("a"), ("a"), ("a")]).2 (by decide)⟩

theorem loop1_no_fuelOut (chains : Chains) (numWords : Nat) (rs : Nat → Nat) :
    ∀ (fuel i : Nat) (key : JSVal) (out : List String),
      numWords < out.length + fuel →
      loop1 chains numWords rs fuel i key out ≠ Res.fuelOut := by
  intro fuel
  induction fuel with
  | zero =>
    intro i key out hfuel
    have hcond : ¬ (out.length < numWords ∧ key ≠ JSVal.null) := by
      intro hc
      omega
    rw [loop1_stop chains numWords rs 0 i key out hcond]
    intro hc
    cases hc
  | succ fuel ih =>
    intro i key out hfuel
    by_cases hcond : out.length < numWords ∧ key ≠ JSVal.null
    · match key, hcond with
      | JSVal.str s, hcond =>
        rw [loop1_step_str chains numWords rs fuel i s out hcond.1]
        cases hget : mapGet chains s with
        | none => intro hc; cases hc
        | some ar =>
          refine ih (i + 1) (succToJS (choice ar (rs i))) (out ++ [s]) ?_
          simp only [List.length_append, List.length_cons, List.length_nil]
          omega
      | JSVal.undef, hcond =>
        rw [loop1_step_undef chains numWords rs fuel i out hcond.1]
        intro hc
        cases hc
    · rw [loop1_stop chains numWords rs (fuel + 1) i key out hcond]
      intro hc
      cases hc

theorem loop2_no_fuelOut (chains : Chains) (numWords : Nat) (rs : Nat → Nat) :
    ∀ (fuel i : Nat) (key : JSVal) (out : List String),
      numWords + 1 < out.length + fuel →
      loop2 chains numWords rs fuel i key out ≠ Res.fuelOut := by
  intro fuel
  induction fuel with
  | zero =>
    intro i key out hfuel
    have hcond : ¬ (out.length ≤ numWords ∧ key ≠ JSVal.null) := by
      intro hc
      omega
    rw [loop2_stop chains numWords rs 0 i key out hcond]
    intro hc
    cases hc
  | succ fuel ih =>
    intro i key out hfuel
    by_cases hcond : out.length ≤ numWords ∧ key ≠ JSVal.null
    · match key, hcond with
      | JSVal.str s, hcond =>
        rw [loop2_step_str chains numWords rs fuel i s out hcond.1]
        cases hget : mapGet chains s with
        | none => intro hc; cases hc
        | some ar =>
          refine ih (i + 1) _ (out ++ [(jsSplitSpace s).headD ("")]) ?_
          simp only [List.length_append, List.length_cons, List.length_nil]
          omega
      | JSVal.undef, hcond =>
        rw [loop2_step_undef chains numWords rs fuel i out hcond.1]
        intro hc
        cases hc
    · rw [loop2_stop chains numWords rs (fuel + 1) i key out hcond]
      intro hc
      cases hc

/-- C4: for every non-empty chain table, every bound and every random
stream, both generation loops finish within a bounded number of
iterations, numWords for order-1 and numWords + 1 for the bigram variant,
because each iteration lengthens the output by one and the loop guard
compares the output length against the bound; a model run carrying at
least that much fuel never exhausts it. -/
theorem c4_termination (chains : Chains) (numWords : Nat) (rs : Nat → Nat)
    (fuel : Nat) (hne : chains ≠ []) :
    (numWords < fuel → run1 chains numWords rs fuel ≠ Res.fuelOut) ∧
    (numWords + 1 < fuel → run2 chains numWords rs fuel ≠ Res.fuelOut) := by
  constructor
  · intro hfuel
    exact loop1_no_fuelOut chains numWords rs fuel 1
      (strToJS (choice (keysOf chains) (rs 0))) [] (by simpa using hfuel)
  · intro hfuel
    exact loop2_no_fuelOut chains numWords rs fuel 1
      (strToJS (choice (keysOf chains) (rs 0))) [] (by simpa using hfuel)

/-- C4 witness: a concrete non-empty table with concrete fuel above the
bound. -/
theorem c4_termination_witness :
    run1 (makeChains1 (tokenize exAB)) 2 rsZero 5 ≠ Res.fuelOut ∧
    run2 (makeChains2 (tokenize exAB)) 2 rsZero 5 ≠ Res.fuelOut :=
  ⟨(c4_termination (makeChains1 (tokenize exAB)) 2 rsZero 5 (by decide)).1 (by decide),
    (c4_termination (makeChains2 (tokenize exAB)) 2 rsZero 5 (by decide)).2 (by decide)⟩

theorem choice_eq_some_of_ne_nil (ar : List α) (r : Nat) (h : ar ≠ []) :
    ∃ v, choice ar r = some v := by
  have hlen : 0 < ar.length := List.length_pos.mpr h
  have hmod : r % ar.length < ar.length := Nat.mod_lt r hlen
  rw [choice]
  rw [List.get?_eq_get hmod]
  exact ⟨ar.get ⟨r % ar.length, hmod⟩, rfl⟩

theorem choice_mem (ar : List α) (r : Nat) (v : α) (h : choice ar r = some v) :
    v ∈ ar := by
  rw [choice] at h
  exact List.get?_mem h

theorem makeChains1_values_ne_nil (ts : List String) (k : String) (l : List Succ)
    (h : mapGet (makeChains1 ts) k = some l) : l ≠ [] := by
  rw [mapGet_makeChains1] at h
  by_cases hnil : sux1 ts k = []
  · simp [hnil] at h
  · rw [if_neg hnil] at h
    cases h
    exact hnil

theorem mapGet_makeChains1_of_mem (ts : List String) (k : String) (h : k ∈ ts) :
    mapGet (makeChains1 ts) k ≠ none := by
  rw [mapGet_makeChains1]
  simp [sux1_ne_nil ts k h]

theorem makeChains1_closed (ts : List String) (k : String) (l : List Succ)
    (t : String) (h : mapGet (makeChains1 ts) k = some l) (ht : some t ∈ l) :
    mapGet (makeChains1 ts) t ≠ none := by
  have hl : l = sux1 ts k := by
    rw [mapGet_makeChains1] at h
    by_cases hnil : sux1 ts k = []
    · simp [hnil] at h
    · rw [if_neg hnil] at h
      cases h
      rfl
  subst hl
  exact mapGet_makeChains1_of_mem ts t (mem_of_sux1_some ts k t ht)

theorem loop1_reaches_ok (chains : Chains) (numWords : Nat) (rs : Nat → Nat)
    (hne : ∀ k l, mapGet chains k = some l → l ≠ [])
    (hcl : ∀ k l t, mapGet chains k = some l → some t ∈ l → mapGet chains t ≠ none) :
    ∀ (fuel i : Nat) (key : JSVal) (out : List String),
      (key = JSVal.null ∨ ∃ s, key = JSVal.str s ∧ mapGet chains s ≠ none) →
      numWords < out.length + fuel →
      ∃ out2, loop1 chains numWords rs fuel i key out = Res.ok out2 := by
  intro fuel
  induction fuel with
  | zero =>
    intro i key out hkey hfuel
    have hcond : ¬ (out.length < numWords ∧ key ≠ JSVal.null) := by
      intro hc
      omega
    exact ⟨out, loop1_stop chains numWords rs 0 i key out hcond⟩
  | succ fuel ih =>
    intro i key out hkey hfuel
    by_cases hcond : out.length < numWords ∧ key ≠ JSVal.null
    · rcases hkey with hk | ⟨s, hk, hget⟩
      · exact absurd hk hcond.2
      · subst hk
        cases hget2 : mapGet chains s with
        | none => exact absurd hget2 hget
        | some ar =>
          rw [loop1_step_str chains numWords rs fuel i s out hcond.1, hget2]
          obtain ⟨v, hv⟩ :=
            choice_eq_some_of_ne_nil ar (rs i) (hne s ar hget2)
          refine ih (i + 1) (succToJS (choice ar (rs i))) (out ++ [s]) ?_ ?_
          · cases v with
            | none =>
              left
              rw [hv]
              rfl
            | some t =>
              right
              refine ⟨t, by rw [hv]; rfl, ?_⟩
              exact hcl s ar t hget2 ((choice_mem ar (rs i) (some t) hv) )
          · simp only [List.length_append, List.length_cons, List.length_nil]
            omega
    · exact ⟨out, loop1_stop chains numWords rs (fuel + 1) i key out hcond⟩

/-- C10: every non-END successor stored in the order-1 table is itself a
key of the table, and every key stores a non-empty successor sequence;
consequently an order-1 walk on a table built from a non-empty token list
only ever looks up present keys and samples from non-empty sequences, so
with enough fuel it always returns normally. -/
theorem c10_closure (ts : List String) (numWords : Nat) (rs : Nat → Nat)
    (fuel : Nat) :
    (∀ k l, mapGet (makeChains1 ts) k = some l → l ≠ []) ∧
    (∀ k l t, mapGet (makeChains1 ts) k = some l → some t ∈ l →
        mapGet (makeChains1 ts) t ≠ none) ∧
    (ts ≠ [] → numWords < fuel →
        ∃ out, run1 (makeChains1 ts) numWords rs fuel = Res.ok out) := by
  refine ⟨makeChains1_values_ne_nil ts, makeChains1_closed ts, ?_⟩
  intro hts hfuel
  have hhead : ts.headD ("") ∈ ts := by
    match ts, hts with
    | t :: rest, _ => exact List.mem_cons_self t rest
  have hchne : makeChains1 ts ≠ [] := by
    intro hc
    exact mapGet_makeChains1_of_mem ts (ts.headD ("")) hhead (by rw [hc]; rfl)
  have hkeys : keysOf (makeChains1 ts) ≠ [] := by
    intro hc
    exact hchne (List.map_eq_nil.mp hc)
  obtain ⟨k0, hk0⟩ := choice_eq_some_of_ne_nil (keysOf (makeChains1 ts)) (rs 0) hkeys
  refine loop1_reaches_ok (makeChains1 ts) numWords rs
    (makeChains1_values_ne_nil ts) (makeChains1_closed ts) fuel 1
    (strToJS (choice (keysOf (makeChains1 ts)) (rs 0))) [] ?_ (by simpa using hfuel)
  right
  refine ⟨k0, by rw [hk0]; rfl, ?_⟩
  intro hc
  exact (mapGet_eq_none_iff (makeChains1 ts) k0).mp hc
    (choice_mem (keysOf (makeChains1 ts)) (rs 0) k0 hk0)

/-- C10 witness: the walk on the table of a concrete two-token corpus
returns normally. -/
theorem c10_closure_witness :
    ∃ out, run1 (makeChains1 (tokenize exAB)) 2 rsZero 5 = Res.ok out :=
  (c10_closure (tokenize exAB) 2 rsZero 5).2.2 (by decide) (by decide)

/-- C9 counterexample: on the corpus whose second word is the literal
word null, a completed bigram run emits the string null as an interior
output token by coercing the sampled END sentinel into the rebuilt key;
that token is not the chosen start state and is stored as nobody's
successor in the chain table, refuting the claim that every non-start
output token is reachable as some successor of some key. -/
theorem c9_counterexample :
    run2 (makeChains2 (tokenize exC9)) 5 rsC9 10 =
      Res.ok [("x"), ("y"), ("w"), ("null"), ("x"), ("y")] ∧
    strToJS (choice (keysOf (makeChains2 (tokenize exC9))) (rsC9 0)) =
      JSVal.str ("x y") ∧
    ([("x"), ("y"), ("w"), ("null"), ("x"), ("y")] : List String).contains ("null")
      = true ∧
    (jsSplitSpace ("x y")).contains ("null") = false ∧
    hasSucc (makeChains2 (tokenize exC9)) ("null") = false := by
  decide

theorem splitP_front (p : Char → Bool) (as : List Char)
    (ha : ∀ c ∈ as, p c = false) : ∀ bs : List Char,
    splitP p (as ++ bs) = consHead as (splitP p bs) := by
  induction as with
  | nil =>
    intro bs
    simp only [List.nil_append]
    rw [consHead_nil_of_ne_nil (splitP p bs) (splitP_ne_nil p bs)]
  | cons c as ih =>
    intro bs
    have hc : p c = false := ha c (List.mem_cons_self c as)
    have has : ∀ x ∈ as, p x = false := fun x hx => ha x (List.mem_cons_of_mem c hx)
    obtain ⟨t, rest, heq⟩ := List.exists_cons_of_ne_nil (splitP_ne_nil p bs)
    have hih := ih has bs
    rw [heq] at hih
    show splitP p (c :: (as ++ bs)) = consHead (c :: as) (splitP p bs)
    rw [splitP, if_neg (by simp [hc]), hih, heq]
    simp [consHead]

theorem splitP_all_false (p : Char → Bool) (as : List Char)
    (ha : ∀ c ∈ as, p c = false) : splitP p as = [as] := by
  have h := splitP_front p as ha []
  simpa [splitP, consHead] using h

theorem jsSplitSpace_single (b : String) (hb : spaceFree b) :
    jsSplitSpace b = [b] := by
  rw [jsSplitSpace, splitP_all_false]
  · rfl
  · intro c hc
    simp [hb c hc]

theorem mk_data (s : String) : String.mk s.data = s := rfl

theorem jsSplitSpace_pair (a b : String) (ha : spaceFree a) (hb : spaceFree b) :
    jsSplitSpace (a ++ " " ++ b) = [a, b] := by
  have hsp : (" " : String).data = [' '] := by decide
  have hdata : (a ++ " " ++ b).data = a.data ++ (' ' :: b.data) := by
    rw [String.data_append, String.data_append, hsp]
    simp
  have hb2 : splitP (fun c => c = ' ') (' ' :: b.data) =
      [] :: splitP (fun c => c = ' ') b.data := by
    rw [splitP]
    simp
  have hbone : splitP (fun c => c = ' ') b.data = [b.data] := by
    apply splitP_all_false
    intro c hc
    simp [hb c hc]
  have hpre := splitP_front (fun c => c = ' ') a.data
    (by intro c hc; simp [ha c hc]) (' ' :: b.data)
  rw [jsSplitSpace, hdata, hpre, hb2, hbone]
  simp [consHead, mk_data]

theorem spaceFree_of_mem_jsSplitSpace (s t : String) (h : t ∈ jsSplitSpace s) :
    spaceFree t := by
  rw [jsSplitSpace] at h
  obtain ⟨l, hl, hlt⟩ := List.mem_map.mp h
  intro c hc
  have hcl : c ∈ l := by
    rw [← hlt] at hc
    exact hc
  have := splitP_no_delim (fun c => c = ' ') s.data l hl c hcl
  simpa using this

theorem makeChains2_values_eq (ts : List String) (k : String) (l : List Succ)
    (h : mapGet (makeChains2 ts) k = some l) : l = sux2 ts k := by
  rw [mapGet_makeChains2] at h
  by_cases hnil : sux2 ts k = []
  · simp [hnil] at h
  · rw [if_neg hnil] at h
    cases h
    rfl

theorem makeChains2_values_ne_nil (ts : List String) (k : String) (l : List Succ)
    (h : mapGet (makeChains2 ts) k = some l) : l ≠ [] := by
  have hl := makeChains2_values_eq ts k l h
  rw [mapGet_makeChains2] at h
  by_cases hnil : sux2 ts k = []
  · simp [hnil] at h
  · rw [hl]
    exact hnil

theorem sux2_ne_nil_exists (ts : List String) (k : String)
    (h : sux2 ts k ≠ []) :
    ∃ i a b, ts.get? i = some a ∧ ts.get? (i + 1) = some b ∧ k = a ++ " " ++ b := by
  induction ts with
  | nil => simp [sux2] at h
  | cons w rest ih =>
    match rest with
    | [] => simp [sux2] at h
    | w2 :: rest2 =>
      by_cases hwk : w ++ " " ++ w2 = k
      · exact ⟨0, w, w2, rfl, rfl, hwk.symm⟩
      · have h2 : sux2 (w2 :: rest2) k ≠ [] := by
          simp only [sux2, hwk] at h
          simpa using h
        obtain ⟨i, a, b, h1, h2, h3⟩ := ih h2
        exact ⟨i + 1, a, b, h1, h2, h3⟩

theorem makeChains2_key_shape (ts : List String) (s : String)
    (h : mapGet (makeChains2 ts) s ≠ none) :
    ∃ a b, a ∈ ts ∧ b ∈ ts ∧ s = a ++ " " ++ b := by
  rw [mapGet_makeChains2] at h
  by_cases hnil : sux2 ts s = []
  · simp [hnil] at h
  · obtain ⟨i, a, b, h1, h2, h3⟩ := sux2_ne_nil_exists ts s hnil
    exact ⟨a, b, List.get?_mem h1, List.get?_mem h2, h3⟩

theorem makeChains2_succ_mem (ts : List String) (s : String) (ar : List Succ)
    (u : String) (h : mapGet (makeChains2 ts) s = some ar) (hu : some u ∈ ar) :
    u ∈ ts := by
  have har := makeChains2_values_eq ts s ar h
  rw [har] at hu
  exact mem_of_sux2_some ts s u hu

theorem spaceFree_null : spaceFree ("null") := by decide

theorem loop1_ok_tail_succ (chains : Chains) (numWords : Nat) (rs : Nat → Nat) :
    ∀ (fuel i : Nat) (key : JSVal) (out out2 : List String),
      (∀ t ∈ out.tail, hasSucc chains t = true) →
      (out ≠ [] → ∀ s, key = JSVal.str s → hasSucc chains s = true) →
      loop1 chains numWords rs fuel i key out = Res.ok out2 →
      ∀ t ∈ out2.tail, hasSucc chains t = true := by
  intro fuel
  induction fuel with
  | zero =>
    intro i key out out2 hinv hkey hrun
    by_cases hcond : out.length < numWords ∧ key ≠ JSVal.null
    · rw [loop1_fuel0 chains numWords rs i key out hcond] at hrun
      cases hrun
    · rw [loop1_stop chains numWords rs 0 i key out hcond] at hrun
      cases hrun
      exact hinv
  | succ fuel ih =>
    intro i key out out2 hinv hkey hrun
    by_cases hcond : out.length < numWords ∧ key ≠ JSVal.null
    · match key, hcond with
      | JSVal.str s, hcond =>
        rw [loop1_step_str chains numWords rs fuel i s out hcond.1] at hrun
        cases hget : mapGet chains s with
        | none => rw [hget] at hrun; cases hrun
        | some ar =>
          rw [hget] at hrun
          refine ih (i + 1) (succToJS (choice ar (rs i))) (out ++ [s]) out2 ?_ ?_ hrun
          · intro t htt
            match out, htt with
            | o :: os, htt =>
              have htt2 : t ∈ os ++ [s] := htt
              rcases List.mem_append.mp htt2 with h1 | h1
              · exact hinv t h1
              · have hts : t = s := by simpa using h1
                rw [hts]
                exact hkey (by simp) s rfl
          · intro hne2 u hu
            cases hch : choice ar (rs i) with
            | none => rw [hch] at hu; cases hu
            | some v =>
              cases v with
              | none => rw [hch] at hu; cases hu
              | some x =>
                rw [hch] at hu
                injection hu with hxu
                rw [← hxu]
                exact hasSucc_of_mapGet chains s ar x hget
                  (choice_mem ar (rs i) (some x) hch)
      | JSVal.undef, hcond =>
        rw [loop1_step_undef chains numWords rs fuel i out hcond.1] at hrun
        cases hrun
    · rw [loop1_stop chains numWords rs (fuel + 1) i key out hcond] at hrun
      cases hrun
      exact hinv

theorem loop2_ok_mem (chains : Chains) (ts : List String) (numWords : Nat)
    (rs : Nat → Nat)
    (hkeys : ∀ s, mapGet chains s ≠ none →
      ∃ a b, a ∈ ts ∧ b ∈ ts ∧ s = a ++ " " ++ b)
    (hsf : ∀ t ∈ ts, spaceFree t) :
    ∀ (fuel i : Nat) (key : JSVal) (out out2 : List String),
      (∀ t ∈ out, t ∈ ts) →
      loop2 chains numWords rs fuel i key out = Res.ok out2 →
      ∀ t ∈ out2, t ∈ ts := by
  intro fuel
  induction fuel with
  | zero =>
    intro i key out out2 hout hrun
    by_cases hcond : out.length ≤ numWords ∧ key ≠ JSVal.null
    · rw [loop2_fuel0 chains numWords rs i key out hcond] at hrun
      cases hrun
    · rw [loop2_stop chains numWords rs 0 i key out hcond] at hrun
      cases hrun
      exact hout
  | succ fuel ih =>
    intro i key out out2 hout hrun
    by_cases hcond : out.length ≤ numWords ∧ key ≠ JSVal.null
    · match key, hcond with
      | JSVal.str s, hcond =>
        rw [loop2_step_str chains numWords rs fuel i s out hcond.1] at hrun
        cases hget : mapGet chains s with
        | none => rw [hget] at hrun; cases hrun
        | some ar =>
          rw [hget] at hrun
          obtain ⟨a, b, hat, hbt, heq⟩ := hkeys s (by simp [hget])
          have hsplit : jsSplitSpace s = [a, b] := by
            rw [heq]
            exact jsSplitSpace_pair a b (hsf a hat) (hsf b hbt)
          rw [hsplit] at hrun
          refine ih (i + 1) _ (out ++ [a]) out2 ?_ hrun
          intro t htt
          rcases List.mem_append.mp htt with h1 | h1
          · exact hout t h1
          · have hta : t = a := by simpa using h1
            subst hta
            exact hat
      | JSVal.undef, hcond =>
        rw [loop2_step_undef chains numWords rs fuel i out hcond.1] at hrun
        cases hrun
    · rw [loop2_stop chains numWords rs (fuel + 1) i key out hcond] at hrun
      cases hrun
      exact hout

theorem loop2_ok_prov (chains : Chains) (ts : List String) (numWords : Nat)
    (rs : Nat → Nat) (P : String → Prop)
    (hkeys : ∀ s, mapGet chains s ≠ none →
      ∃ a b, a ∈ ts ∧ b ∈ ts ∧ s = a ++ " " ++ b)
    (hsf : ∀ t ∈ ts, spaceFree t)
    (hne : ∀ s ar, mapGet chains s = some ar → ar ≠ [])
    (hsucc : ∀ s ar u, mapGet chains s = some ar → some u ∈ ar → P u ∧ spaceFree u)
    (hnull : P ("null")) :
    ∀ (fuel i : Nat) (key : JSVal) (out out2 : List String),
      (∀ s, key = JSVal.str s → ∀ t ∈ jsSplitSpace s, P t) →
      (∀ t ∈ out, P t) →
      loop2 chains numWords rs fuel i key out = Res.ok out2 →
      ∀ t ∈ out2, P t := by
  intro fuel
  induction fuel with
  | zero =>
    intro i key out out2 hkey hout hrun
    by_cases hcond : out.length ≤ numWords ∧ key ≠ JSVal.null
    · rw [loop2_fuel0 chains numWords rs i key out hcond] at hrun
      cases hrun
    · rw [loop2_stop chains numWords rs 0 i key out hcond] at hrun
      cases hrun
      exact hout
  | succ fuel ih =>
    intro i key out out2 hkey hout hrun
    by_cases hcond : out.length ≤ numWords ∧ key ≠ JSVal.null
    · match key, hcond, hkey with
      | JSVal.str s, hcond, hkey =>
        rw [loop2_step_str chains numWords rs fuel i s out hcond.1] at hrun
        cases hget : mapGet chains s with
        | none => rw [hget] at hrun; cases hrun
        | some ar =>
          rw [hget] at hrun
          obtain ⟨a, b, hat, hbt, heq⟩ := hkeys s (by simp [hget])
          have hsplit : jsSplitSpace s = [a, b] := by
            rw [heq]
            exact jsSplitSpace_pair a b (hsf a hat) (hsf b hbt)
          have hPa : P a := hkey s rfl a (by rw [hsplit]; simp)
          have hPb : P b := hkey s rfl b (by rw [hsplit]; simp)
          have hstep : P (jsToString (succToJS (choice ar (rs i)))) ∧
              spaceFree (jsToString (succToJS (choice ar (rs i)))) := by
            obtain ⟨v, hv⟩ := choice_eq_some_of_ne_nil ar (rs i) (hne s ar hget)
            rw [hv]
            cases v with
            | none => exact ⟨hnull, spaceFree_null⟩
            | some u =>
              have hu := hsucc s ar u hget (choice_mem ar (rs i) (some u) hv)
              exact ⟨hu.1, hu.2⟩
          have hget1 : (jsSplitSpace s).get? 1 = some b := by
            rw [hsplit]
            rfl
          refine ih (i + 1) _ (out ++ [(jsSplitSpace s).headD ("")]) out2 ?_ ?_ hrun
          · intro s2 hs2 t htt
            have hs2e : s2 = b ++ " " ++ jsToString (succToJS (choice ar (rs i))) := by
              injection hs2 with hs2e
              rw [hget1] at hs2e
              simpa [strToJS, jsToString] using hs2e.symm
            rw [hs2e,
              jsSplitSpace_pair b (jsToString (succToJS (choice ar (rs i))))
                (hsf b hbt) hstep.2] at htt
            rcases List.mem_cons.mp htt with h1 | h1
            · exact h1 ▸ hPb
            · have h2 : t = jsToString (succToJS (choice ar (rs i))) := by
                simpa using h1
              exact h2 ▸ hstep.1
          · intro t htt
            rcases List.mem_append.mp htt with h1 | h1
            · exact hout t h1
            · have hta : t = a := by
                rw [hsplit] at h1
                simpa using h1
              exact hta ▸ hPa
      | JSVal.undef, hcond, hkey =>
        rw [loop2_step_undef chains numWords rs fuel i out hcond.1] at hrun
        cases hrun
    · rw [loop2_stop chains numWords rs (fuel + 1) i key out hcond] at hrun
      cases hrun
      exact hout

/-- C9 amended: for the order-1 generator the claim holds as stated:
every output token other than the arbitrarily chosen start is stored as a
successor of some key of the table.  For the bigram generator, every
token of a completed run's output occurs in the original corpus, and is a
component of the arbitrarily chosen start state, or a stored successor of
some key, or the string form of null that the + operator produces from a
sampled END sentinel when rebuilding the key (possible in a completed run
only when the corpus itself contains that word). -/
theorem c9_amended_output_tokens (ts : List String) (chains : Chains)
    (numWords : Nat) (rs : Nat → Nat) (fuel : Nat) (out : List String) :
    (run1 chains numWords rs fuel = Res.ok out →
      ∀ t ∈ out.tail, hasSucc chains t = true) ∧
    ((∀ t ∈ ts, t ≠ "" ∧ spaceFree t) →
      run2 (makeChains2 ts) numWords rs fuel = Res.ok out →
      ∀ t ∈ out, t ∈ ts ∧
        ((∃ s, choice (keysOf (makeChains2 ts)) (rs 0) = some s ∧
            t ∈ jsSplitSpace s) ∨
          hasSucc (makeChains2 ts) t = true ∨ t = "null")) := by
  constructor
  · intro hrun
    exact loop1_ok_tail_succ chains numWords rs fuel 1
      (strToJS (choice (keysOf chains) (rs 0))) [] out (by simp)
      (by intro hc; exact absurd rfl hc) hrun
  · intro htok hrun t htout
    have hsf : ∀ u ∈ ts, spaceFree u := fun u hu => (htok u hu).2
    have hkeys : ∀ s, mapGet (makeChains2 ts) s ≠ none →
        ∃ a b, a ∈ ts ∧ b ∈ ts ∧ s = a ++ " " ++ b :=
      fun s hs => makeChains2_key_shape ts s hs
    constructor
    · exact loop2_ok_mem (makeChains2 ts) ts numWords rs hkeys hsf fuel 1
        (strToJS (choice (keysOf (makeChains2 ts)) (rs 0))) [] out
        (by simp) hrun t htout
    · refine loop2_ok_prov (makeChains2 ts) ts numWords rs
        (fun u => (∃ s, choice (keysOf (makeChains2 ts)) (rs 0) = some s ∧
            u ∈ jsSplitSpace s) ∨
          hasSucc (makeChains2 ts) u = true ∨ u = "null")
        hkeys hsf (makeChains2_values_ne_nil ts) ?_ ?_ fuel 1
        (strToJS (choice (keysOf (makeChains2 ts)) (rs 0))) [] out ?_
        (by simp) hrun t htout
      · intro s ar u hget hu
        refine ⟨Or.inr (Or.inl (hasSucc_of_mapGet (makeChains2 ts) s ar u hget hu)), ?_⟩
        exact hsf u (makeChains2_succ_mem ts s ar u hget hu)
      · exact Or.inr (Or.inr rfl)
      · intro s hs
        cases hch : choice (keysOf (makeChains2 ts)) (rs 0) with
        | none =>
          rw [hch] at hs
          cases hs
        | some s0 =>
          rw [hch] at hs
          injection hs with he
          subst he
          intro u hu
          exact Or.inl ⟨s0, rfl, hu⟩

/-- C9 amended witness: on concrete runs, an interior order-1 output
token is a stored successor, and an output token of the bigram
counterexample run is a corpus token. -/
theorem c9_amended_output_tokens_witness :
    hasSucc (makeChains1 (tokenize exAAA)) ("a") = true ∧
    ("w" : String) ∈ tokenize exC9 :=
  ⟨(c9_amended_output_tokens (tokenize exAAA) (makeChains1 (tokenize exAAA)) 2
      rsZero 10 [("a"), ("a")]).1 (by decide) ("a") (by decide),
    ((c9_amended_output_tokens (tokenize exC9) (makeChains2 (tokenize exC9)) 5
      rsC9 10 [("x"), ("y"), ("w"), ("null"), ("x"), ("y")]).2 (by decide)
      (by decide) ("w") (by decide)).1⟩

end NodeMarkov
